import Mathlib

/-!
Shallow embedding of the bril control-flow-graph core (`src/object.rs`):
the IR data model, the basic-block partitioner `Function.get_basic_blocks`,
and the edge builder `Function.get_edges`, together with theorems about
the properties claimed of them.
-/

namespace Bril

/-- Mirrors `enum Type` from the source (`Type` is reserved in Lean). -/
inductive Ty
  | int
  | bool
  | ptr (t : Ty)
deriving DecidableEq, Repr

/-- Mirrors `enum Literal`. -/
inductive Literal
  | bool (b : Bool)
  | int (i : Int)
deriving DecidableEq, Repr

/-- Mirrors `enum ConstOps`. -/
inductive ConstOps
  | const
deriving DecidableEq, Repr

/-- Mirrors `enum ValueOps`. -/
inductive ValueOps
  | add | mul | sub | div
  | eq | lt | gt | le | ge
  | not | and | or
  | call
  | id
  | alloc | load | ptradd
deriving DecidableEq, Repr

/-- Mirrors `enum EffectOps`. -/
inductive EffectOps
  | jmp | br | ret | print | nop | free | store
deriving DecidableEq, Repr

/-- Mirrors `enum Instruction` (Constant / Value / Effect). -/
inductive Instruction
  | Constant (op : ConstOps) (dest : String) (dest_type : Ty) (value : Literal)
  | Value (op : ValueOps) (dest : Option String) (dest_type : Option Ty)
      (args : List String) (funcs : List String) (labels : List String)
  | Effect (op : EffectOps) (args : List String) (funcs : List String)
      (labels : List String)
deriving DecidableEq, Repr

/-- Mirrors `enum Code` (a label marker or an instruction). -/
inductive Code
  | Label (label : String)
  | Instruction (instr : Bril.Instruction)
deriving DecidableEq, Repr

/-- Mirrors `struct Arg`. -/
structure Arg where
  name : String
  arg_type : Ty
deriving DecidableEq, Repr

/-- Mirrors `struct Function`. -/
structure Function where
  name : String
  args : List Arg
  return_type : Option Ty
  instrs : List Code
deriving DecidableEq, Repr

/-- Mirrors `struct BasicBlock` (instruction references modelled as values). -/
structure BasicBlock where
  label : String
  instrs : List Code
deriving DecidableEq, Repr

/-- Mirrors `Code::is_label`. -/
def Code.is_label : Code → Bool
  | Code.Label _ => true
  | _ => false

/-- Mirrors `Code::get_label`. -/
def Code.get_label : Code → String
  | Code.Label l => l
  | _ => ""

/-- Mirrors `Code::is_terminator`: an `Effect` instruction whose op is
`br`, `jmp` or `ret`. -/
def Code.is_terminator : Code → Bool
  | Code.Instruction (Instruction.Effect op _ _ _) =>
      match op with
      | EffectOps.br | EffectOps.jmp | EffectOps.ret => true
      | _ => false
  | _ => false

/-- The loop body of `Function::get_basic_blocks`, as a recursion over the
remaining instruction list.  State: the pending block's label and
instruction list (`bb.label` / `bb.instrs` in the source) and the blocks
flushed so far (`basic_blocks`).  The peekable-iterator tests translate to
tests on `rest`. -/
def getBasicBlocksAux (name : String) :
    List Code → String → List Code → List BasicBlock → List BasicBlock
  | [], _, _, acc => acc
  | current :: rest, label, instrs, acc =>
    if current.is_label then
      getBasicBlocksAux name rest current.get_label instrs acc
    else
      let instrs' := instrs ++ [current]
      let next_is_label :=
        match rest.head? with
        | some next => next.is_label
        | none => false
      if rest.isEmpty || next_is_label || current.is_terminator then
        let flushed := acc ++ [⟨label, instrs'⟩]
        let label' :=
          if current.is_terminator && !next_is_label then
            name ++ "_bb" ++ Nat.repr flushed.length
          else
            label
        getBasicBlocksAux name rest label' [] flushed
      else
        getBasicBlocksAux name rest label instrs' acc

/-- Mirrors `Function::get_basic_blocks`. -/
def Function.get_basic_blocks (f : Function) : List BasicBlock :=
  getBasicBlocksAux f.name f.instrs "entry" [] []

/-- The successor / predecessor maps: block label to ordered label list.
Models the `HashMap<&str, Vec<&str>>` of the source; a key absent from the
map is `none`. -/
abbrev EdgeMap : Type := String → Option (List String)

/-- The empty map. -/
def emptyEdgeMap : EdgeMap := fun _ => none

/-- Mirrors `HashMap::insert` (overwrites any existing value at the key). -/
def mapInsert (m : EdgeMap) (k : String) (v : List String) : EdgeMap :=
  fun x => if x = k then some v else m x

/-- Mirrors `map.entry(k).or_insert(vec![]).push(v)`. -/
def mapPush (m : EdgeMap) (k : String) (v : String) : EdgeMap :=
  fun x => if x = k then some ((m k).getD [] ++ [v]) else m x

/-- Push `src` onto the predecessor list of every label of `ls`, in order:
mirrors the `for &label in &referenced_labels` loop of `get_edges`. -/
def pushAll (p : EdgeMap) (ls : List String) (src : String) : EdgeMap :=
  ls.foldl (fun m l => mapPush m l src) p

/-- One iteration of the `get_edges` loop, for block `current` with lookahead
`next` (the peeked next block, if any). -/
def edgeStep (current : BasicBlock) (next : Option BasicBlock)
    (sp : EdgeMap × EdgeMap) : EdgeMap × EdgeMap :=
  match current.instrs.getLast? with
  | none => sp
  | some last =>
    if last.is_terminator then
      match last with
      | Code.Instruction (Instruction.Effect _ _ _ labels) =>
          (mapInsert sp.1 current.label labels, pushAll sp.2 labels current.label)
      | _ => sp
    else
      match next with
      | some nxt =>
          (mapInsert sp.1 current.label [nxt.label],
           mapPush sp.2 nxt.label current.label)
      | none => sp

/-- The `get_edges` loop over the block list. -/
def getEdgesAux : List BasicBlock → EdgeMap × EdgeMap → EdgeMap × EdgeMap
  | [], sp => sp
  | current :: rest, sp => getEdgesAux rest (edgeStep current rest.head? sp)

/-- Mirrors `Function::get_edges`: returns `(successors, predecessors)`.
The `self` parameter is unused, as in the source. -/
def Function.get_edges (_f : Function) (basic_blocks : List BasicBlock) :
    EdgeMap × EdgeMap :=
  getEdgesAux basic_blocks (emptyEdgeMap, emptyEdgeMap)

/-- The instruction lists of a block list, concatenated in order. -/
def blocksInstrs (bs : List BasicBlock) : List Code :=
  bs.foldr (fun b r => b.instrs ++ r) []

/-- The labels carried by the `Label` items of an instruction sequence,
in order. -/
def explicitLabels (codes : List Code) : List String :=
  codes.filterMap fun c =>
    match c with
    | Code.Label l => some l
    | _ => none

/-- Whether the first remaining item is a `Label`. -/
def headIsLabel (codes : List Code) : Bool :=
  match codes with
  | c :: _ => c.is_label
  | [] => false

@[simp] theorem blocksInstrs_nil : blocksInstrs [] = [] := rfl

@[simp] theorem blocksInstrs_cons (b : BasicBlock) (bs : List BasicBlock) :
    blocksInstrs (b :: bs) = b.instrs ++ blocksInstrs bs := rfl

theorem blocksInstrs_concat (xs : List BasicBlock) (b : BasicBlock) :
    blocksInstrs (xs ++ [b]) = blocksInstrs xs ++ b.instrs := by
  induction xs with
  | nil => simp
  | cons x xs ih => simp [ih]

/-- Invariant behind partition completeness: running the partitioner loop
from any state in which the pending instruction list is empty, or the next
item exists and is not a label, flushes everything: the concatenated output
is the already-flushed instructions, then the pending ones, then every
non-label item still to come. -/
theorem getBasicBlocksAux_flatten (name : String) :
    ∀ (codes : List Code) (label : String) (instrs : List Code)
      (acc : List BasicBlock),
      (instrs = [] ∨ (codes ≠ [] ∧ headIsLabel codes = false)) →
      blocksInstrs (getBasicBlocksAux name codes label instrs acc)
        = blocksInstrs acc ++ instrs ++ codes.filter (fun c => !c.is_label)
  | [], label, instrs, acc, h => by
      rcases h with h | h
      · simp [getBasicBlocksAux, h]
      · exact absurd rfl h.1
  | c :: rest, label, instrs, acc, h => by
      by_cases hc : c.is_label = true
      · have hinstrs : instrs = [] := by
          rcases h with h | h
          · exact h
          · simp [headIsLabel, hc] at h
        subst hinstrs
        rw [getBasicBlocksAux, if_pos hc]
        rw [getBasicBlocksAux_flatten name rest c.get_label [] acc (Or.inl rfl)]
        simp [List.filter_cons, hc]
      · rw [getBasicBlocksAux, if_neg hc]
        simp only []
        by_cases hf : (rest.isEmpty ||
            (match rest.head? with
             | some next => next.is_label
             | none => false) || c.is_terminator) = true
        · rw [if_pos hf]
          rw [getBasicBlocksAux_flatten name rest _ [] _ (Or.inl rfl)]
          rw [blocksInstrs_concat]
          simp [List.filter_cons, hc]
        · rw [if_neg hf]
          simp only [Bool.or_eq_true, not_or, Bool.not_eq_true] at hf
          obtain ⟨⟨hne, hnl⟩, _⟩ := hf
          have hrest : rest ≠ [] := by
            cases rest with
            | nil => simp [List.isEmpty] at hne
            | cons _ _ => simp
          have hhead : headIsLabel rest = false := by
            cases rest with
            | nil => simp [headIsLabel]
            | cons r rs => simpa [headIsLabel, List.head?] using hnl
          rw [getBasicBlocksAux_flatten name rest label (instrs ++ [c]) acc
            (Or.inr ⟨hrest, hhead⟩)]
          simp [List.filter_cons, hc]

/-- Claim C1: for every function, concatenating the instruction lists of all
basic blocks returned by `get_basic_blocks`, in block order, yields exactly
the function's original instruction sequence with all `Label` items removed. -/
theorem C1_partition_complete (f : Function) :
    blocksInstrs f.get_basic_blocks = f.instrs.filter (fun c => !c.is_label) := by
  have := getBasicBlocksAux_flatten f.name f.instrs "entry" [] [] (Or.inl rfl)
  simpa [Function.get_basic_blocks] using this

/-- Every block the partitioner loop flushes contains at least one
instruction, provided every already-flushed block does. -/
theorem getBasicBlocksAux_ne_nil (name : String) :
    ∀ (codes : List Code) (label : String) (instrs : List Code)
      (acc : List BasicBlock),
      (∀ b ∈ acc, b.instrs ≠ []) →
      ∀ b ∈ getBasicBlocksAux name codes label instrs acc, b.instrs ≠ []
  | [], label, instrs, acc, hacc => by
      simpa [getBasicBlocksAux] using hacc
  | c :: rest, label, instrs, acc, hacc => by
      by_cases hc : c.is_label = true
      · rw [getBasicBlocksAux, if_pos hc]
        exact getBasicBlocksAux_ne_nil name rest c.get_label instrs acc hacc
      · rw [getBasicBlocksAux, if_neg hc]
        simp only []
        by_cases hf : (rest.isEmpty ||
            (match rest.head? with
             | some next => next.is_label
             | none => false) || c.is_terminator) = true
        · rw [if_pos hf]
          refine getBasicBlocksAux_ne_nil name rest _ [] _ ?_
          intro b hb
          rcases List.mem_append.mp hb with hb | hb
          · exact hacc b hb
          · simp only [List.mem_singleton] at hb
            subst hb
            simp
        · rw [if_neg hf]
          exact getBasicBlocksAux_ne_nil name rest label (instrs ++ [c]) acc hacc

/-- Claim C9: every `BasicBlock` returned by `get_basic_blocks` contains at
least one instruction; a pending block that received a label but no
instruction by the end of the sequence is discarded. -/
theorem C9_no_empty_blocks (f : Function) (b : BasicBlock)
    (hb : b ∈ f.get_basic_blocks) : b.instrs ≠ [] :=
  getBasicBlocksAux_ne_nil f.name f.instrs "entry" [] [] (by simp) b hb

theorem mapInsert_ne (m : EdgeMap) (k : String) (v : List String) (x : String)
    (hx : x ≠ k) : mapInsert m k v x = m x := by
  simp [mapInsert, hx]

theorem pushAll_getD (src : String) :
    ∀ (ls : List String) (p : EdgeMap) (x : String),
      ((pushAll p ls src) x).getD []
        = (p x).getD [] ++ List.replicate (ls.count x) src
  | [], p, x => by simp [pushAll]
  | l :: ls, p, x => by
      have hcons : pushAll p (l :: ls) src = pushAll (mapPush p l src) ls src := rfl
      rw [hcons, pushAll_getD src ls (mapPush p l src) x]
      by_cases h : x = l
      · subst h
        simp [mapPush, List.count_cons, List.replicate_succ]
      · have : (l :: ls).count x = ls.count x := by
          simp [List.count_cons, Ne.symm h]
        simp [mapPush, h, this]

/-- Every iteration of the edge-builder loop either leaves the maps unchanged
or, for the current block's label and some target list, inserts that list
into `successors` and appends the current label to each target's
`predecessors` entry. -/
theorem edgeStep_eq (cur : BasicBlock) (next : Option BasicBlock)
    (sp : EdgeMap × EdgeMap) :
    edgeStep cur next sp = sp ∨
      ∃ ls, edgeStep cur next sp
        = (mapInsert sp.1 cur.label ls, pushAll sp.2 ls cur.label) := by
  rcases hl : cur.instrs.getLast? with _ | last
  · left
    simp [edgeStep, hl]
  · by_cases ht : last.is_terminator = true
    · cases last with
      | Label l => simp [Code.is_terminator] at ht
      | Instruction instr =>
        cases instr with
        | Constant op dest dest_type value => simp [Code.is_terminator] at ht
        | Value op dest dest_type args funcs labels =>
            simp [Code.is_terminator] at ht
        | Effect op args funcs labels =>
            right
            exact ⟨labels, by simp [edgeStep, hl, ht]⟩
    · rcases next with _ | nxt
      · left
        simp [edgeStep, hl, ht]
      · right
        refine ⟨[nxt.label], ?_⟩
        simp [edgeStep, hl, ht, pushAll]

/-- Claim C8: the edge builder inspects a block's last instruction only when
one exists: a block with an empty instruction list contributes no edge at
all (the `Option`-returning last-instruction lookup hits the `none` branch),
and such a block at the head of the list leaves `get_edges` unchanged. -/
theorem C8_empty_block_no_edges (b : BasicBlock) (next : Option BasicBlock)
    (sp : EdgeMap × EdgeMap) (rest : List BasicBlock) (f : Function)
    (h : b.instrs = []) :
    edgeStep b next sp = sp ∧ f.get_edges (b :: rest) = f.get_edges rest := by
  have hl : b.instrs.getLast? = none := by simp [h]
  have hstep : edgeStep b next sp = sp := by simp [edgeStep, hl]
  refine ⟨hstep, ?_⟩
  show getEdgesAux (b :: rest) (emptyEdgeMap, emptyEdgeMap)
    = getEdgesAux rest (emptyEdgeMap, emptyEdgeMap)
  rw [getEdgesAux]
  have : edgeStep b rest.head? (emptyEdgeMap, emptyEdgeMap)
      = (emptyEdgeMap, emptyEdgeMap) := by simp [edgeStep, hl]
  rw [this]

/-- Witness for C8 at a concrete empty block. -/
theorem C8_empty_block_no_edges_witness :
    (BasicBlock.mk "lonely" []).instrs = [] ∧
      (edgeStep (BasicBlock.mk "lonely" []) none (emptyEdgeMap, emptyEdgeMap)
          = (emptyEdgeMap, emptyEdgeMap) ∧
        (Function.mk "f" [] none []).get_edges [BasicBlock.mk "lonely" []]
          = (Function.mk "f" [] none []).get_edges []) :=
  ⟨rfl, C8_empty_block_no_edges (BasicBlock.mk "lonely" []) none
    (emptyEdgeMap, emptyEdgeMap) [] (Function.mk "f" [] none []) rfl⟩

/-- Claim C10: when a block ends in a terminator `Effect` instruction, the
edge-builder iteration appends the block's label to `predecessors[L]` once
per occurrence of `L` in the terminator's `labels` list, preserving
multiplicity and order. -/
theorem C10_pred_multiplicity (b : BasicBlock) (next : Option BasicBlock)
    (s p : EdgeMap) (op : EffectOps) (args funcs ls : List String) (L : String)
    (hlast : b.instrs.getLast?
      = some (Code.Instruction (Instruction.Effect op args funcs ls)))
    (hterm : (Code.Instruction
      (Instruction.Effect op args funcs ls) : Code).is_terminator = true) :
    ((edgeStep b next (s, p)).2 L).getD []
      = (p L).getD [] ++ List.replicate (ls.count L) b.label := by
  have hstep : edgeStep b next (s, p)
      = (mapInsert s b.label ls, pushAll p ls b.label) := by
    simp [edgeStep, hlast, hterm]
  rw [hstep]
  exact pushAll_getD b.label ls p L

/-- Witness for C10: a `br` targeting the same label twice contributes the
source label twice to that target's predecessor list. -/
theorem C10_pred_multiplicity_witness :
    ((BasicBlock.mk "src"
        [Code.Instruction (Instruction.Effect EffectOps.br ["c"] [] ["L", "L"])]
      ).instrs.getLast?
        = some (Code.Instruction (Instruction.Effect EffectOps.br ["c"] [] ["L", "L"]))) ∧
      ((edgeStep (BasicBlock.mk "src"
          [Code.Instruction (Instruction.Effect EffectOps.br ["c"] [] ["L", "L"])])
          none (emptyEdgeMap, emptyEdgeMap)).2 "L").getD []
        = (emptyEdgeMap "L").getD []
            ++ List.replicate ((["L", "L"] : List String).count "L") "src" :=
  ⟨rfl, C10_pred_multiplicity
    (BasicBlock.mk "src"
      [Code.Instruction (Instruction.Effect EffectOps.br ["c"] [] ["L", "L"])])
    none emptyEdgeMap emptyEdgeMap EffectOps.br ["c"] [] ["L", "L"] "L" rfl rfl⟩

theorem getEdgesAux_fst_ne :
    ∀ (bbs : List BasicBlock) (sp : EdgeMap × EdgeMap) (a : String),
      (∀ bb ∈ bbs, bb.label ≠ a) → (getEdgesAux bbs sp).1 a = sp.1 a
  | [], sp, a, _ => rfl
  | cur :: rest, sp, a, h => by
      rw [getEdgesAux]
      rw [getEdgesAux_fst_ne rest _ a (fun bb hb => h bb (List.mem_cons_of_mem _ hb))]
      rcases edgeStep_eq cur rest.head? sp with he | ⟨ls, he⟩
      · rw [he]
      · rw [he]
        exact mapInsert_ne _ _ _ _ (Ne.symm (h cur (List.mem_cons_self _ _)))

/-- If a block of a list with pairwise-distinct labels ends in a terminator
`Effect` instruction, the final successor map sends that block's label to
exactly the terminator's `labels` list. -/
theorem getEdgesAux_terminator_fst :
    ∀ (bbs : List BasicBlock) (sp : EdgeMap × EdgeMap) (b : BasicBlock)
      (op : EffectOps) (args funcs ls : List String),
      (bbs.map BasicBlock.label).Nodup → b ∈ bbs →
      b.instrs.getLast?
        = some (Code.Instruction (Instruction.Effect op args funcs ls)) →
      (Code.Instruction
        (Instruction.Effect op args funcs ls) : Code).is_terminator = true →
      (getEdgesAux bbs sp).1 b.label = some ls
  | [], _, b, _, _, _, _, _, hb, _, _ => absurd hb (List.not_mem_nil b)
  | cur :: rest, sp, b, op, args, funcs, ls, hnodup, hb, hlast, hterm => by
      rw [List.map_cons, List.nodup_cons] at hnodup
      rcases List.mem_cons.mp hb with hb | hb
      · subst hb
        rw [getEdgesAux]
        have hstep : edgeStep b rest.head? sp
            = (mapInsert sp.1 b.label ls, pushAll sp.2 ls b.label) := by
          simp [edgeStep, hlast, hterm]
        rw [hstep]
        have hne : ∀ bb ∈ rest, bb.label ≠ b.label := by
          intro bb hbb heq
          exact hnodup.1 (heq ▸ List.mem_map_of_mem BasicBlock.label hbb)
        rw [getEdgesAux_fst_ne rest _ b.label hne]
        simp [mapInsert]
      · rw [getEdgesAux]
        exact getEdgesAux_terminator_fst rest _ b op args funcs ls hnodup.2 hb
          hlast hterm

/-- Claim C5 (amended): for a block whose last instruction is an `Effect`
with op `ret`, `get_edges` sets the block's successor entry to exactly the
`ret` instruction's `labels` list (so a well-formed `ret` with empty
`labels` yields zero targets, but a malformed `ret` with non-empty `labels`
yields those labels as outgoing edges), provided block labels are
pairwise distinct. -/
theorem C5_ret_records_labels (f : Function) (bbs : List BasicBlock)
    (b : BasicBlock) (args funcs ls : List String)
    (hnodup : (bbs.map BasicBlock.label).Nodup) (hb : b ∈ bbs)
    (hlast : b.instrs.getLast?
      = some (Code.Instruction (Instruction.Effect EffectOps.ret args funcs ls))) :
    (f.get_edges bbs).1 b.label = some ls :=
  getEdgesAux_terminator_fst bbs (emptyEdgeMap, emptyEdgeMap) b EffectOps.ret
    args funcs ls hnodup hb hlast rfl

/-- The malformed-`ret` function used to refute claim C5 as stated. -/
def retWithLabels : Function :=
  Function.mk "f" [] none
    [Code.Instruction (Instruction.Effect EffectOps.ret [] [] ["a"])]

/-- Counterexample to claim C5 as stated: for a block ending in a `ret`
carrying the non-empty labels list `["a"]`, `get_edges` records the
outgoing edge list `["a"]` for that block (and a matching predecessor),
not zero outgoing edges. -/
theorem C5_counterexample :
    (retWithLabels.get_edges retWithLabels.get_basic_blocks).1 "entry"
        = some ["a"] ∧
      ((retWithLabels.get_edges retWithLabels.get_basic_blocks).2 "a").getD []
        = ["entry"] := by
  constructor <;> rfl

/-- Witness for C5 (amended) at the malformed-`ret` function. -/
theorem C5_ret_records_labels_witness :
    ((retWithLabels.get_basic_blocks.map BasicBlock.label).Nodup ∧
      BasicBlock.mk "entry"
          [Code.Instruction (Instruction.Effect EffectOps.ret [] [] ["a"])]
        ∈ retWithLabels.get_basic_blocks) ∧
      (retWithLabels.get_edges retWithLabels.get_basic_blocks).1 "entry"
        = some ["a"] :=
  ⟨⟨by decide, by decide⟩,
    C5_ret_records_labels retWithLabels retWithLabels.get_basic_blocks
      (BasicBlock.mk "entry"
        [Code.Instruction (Instruction.Effect EffectOps.ret [] [] ["a"])])
      [] [] ["a"] (by decide) (by decide) rfl⟩

/-- The duality invariant of the edge-builder loop: if the successor and
predecessor maps are mutually consistent, no remaining block's label is a
successor key or occurs in a predecessor list, and the remaining labels are
pairwise distinct, then the final maps are mutually consistent. -/
theorem getEdgesAux_duality :
    ∀ (bbs : List BasicBlock) (s p : EdgeMap),
      (∀ a b, b ∈ (s a).getD [] ↔ a ∈ (p b).getD []) →
      (∀ bb ∈ bbs, s bb.label = none) →
      (∀ bb ∈ bbs, ∀ x, bb.label ∉ (p x).getD []) →
      (bbs.map BasicBlock.label).Nodup →
      ∀ a b, b ∈ ((getEdgesAux bbs (s, p)).1 a).getD []
        ↔ a ∈ ((getEdgesAux bbs (s, p)).2 b).getD []
  | [], s, p, h1, _, _, _ => h1
  | cur :: rest, s, p, h1, h2, h3, h4 => by
      rw [List.map_cons, List.nodup_cons] at h4
      have hcur_notin : ∀ bb ∈ rest, bb.label ≠ cur.label := by
        intro bb hbb heq
        exact h4.1 (heq ▸ List.mem_map_of_mem BasicBlock.label hbb)
      rw [getEdgesAux]
      rcases edgeStep_eq cur rest.head? (s, p) with he | ⟨ls, he⟩
      · rw [he]
        exact getEdgesAux_duality rest s p h1
          (fun bb hb => h2 bb (List.mem_cons_of_mem _ hb))
          (fun bb hb => h3 bb (List.mem_cons_of_mem _ hb)) h4.2
      · rw [he]
        refine getEdgesAux_duality rest _ _ ?_ ?_ ?_ h4.2
        · intro a b
          by_cases ha : a = cur.label
          · subst ha
            have hs : (mapInsert s cur.label ls cur.label).getD [] = ls := by
              simp [mapInsert]
            rw [hs, pushAll_getD]
            simp only [List.mem_append, List.mem_replicate]
            constructor
            · intro hmem
              exact Or.inr ⟨by
                  intro hz
                  exact (List.count_eq_zero.mp hz) hmem, trivial⟩
            · rintro (hmem | ⟨hc, _⟩)
              · exact absurd hmem (h3 cur (List.mem_cons_self _ _) b)
              · exact List.count_pos_iff.mp (Nat.pos_of_ne_zero hc)
          · rw [mapInsert_ne _ _ _ _ ha, pushAll_getD]
            simp only [List.mem_append, List.mem_replicate]
            constructor
            · intro hmem
              exact Or.inl ((h1 a b).mp hmem)
            · rintro (hmem | ⟨_, hc⟩)
              · exact (h1 a b).mpr hmem
              · exact absurd hc ha
        · intro bb hbb
          rw [mapInsert_ne _ _ _ _ (hcur_notin bb hbb)]
          exact h2 bb (List.mem_cons_of_mem _ hbb)
        · intro bb hbb x
          rw [pushAll_getD]
          simp only [List.mem_append, List.mem_replicate, not_or]
          exact ⟨h3 bb (List.mem_cons_of_mem _ hbb) x,
            fun ⟨_, hc⟩ => hcur_notin bb hbb hc⟩

/-- Claim C2 (amended): for every function, if the blocks produced by
`get_basic_blocks` bear pairwise-distinct labels, then `B` is a successor
of `A` in the maps returned by `get_edges` exactly when `A` is a
predecessor of `B` (a missing key counting as the empty list). -/
theorem C2_duality (f : Function)
    (h : ((f.get_basic_blocks).map BasicBlock.label).Nodup) (A B : String) :
    B ∈ ((f.get_edges f.get_basic_blocks).1 A).getD []
      ↔ A ∈ ((f.get_edges f.get_basic_blocks).2 B).getD [] :=
  getEdgesAux_duality f.get_basic_blocks emptyEdgeMap emptyEdgeMap
    (by simp [emptyEdgeMap]) (by simp [emptyEdgeMap]) (by simp [emptyEdgeMap])
    h A B

/-- The loop-and-exit function of spec scenario 2. -/
def loopExitFn : Function :=
  Function.mk "g" [] none
    [Code.Label "loop",
     Code.Instruction (Instruction.Effect EffectOps.br ["cond"] [] ["loop", "exit"]),
     Code.Label "exit",
     Code.Instruction (Instruction.Effect EffectOps.ret [] [] [])]

/-- Witness for C2 (amended) on the scenario-2 function. -/
theorem C2_duality_witness :
    ((loopExitFn.get_basic_blocks).map BasicBlock.label).Nodup ∧
      ("exit" ∈ ((loopExitFn.get_edges loopExitFn.get_basic_blocks).1 "loop").getD []
        ↔ "loop" ∈ ((loopExitFn.get_edges loopExitFn.get_basic_blocks).2 "exit").getD []) :=
  ⟨by decide, C2_duality loopExitFn (by decide) "loop" "exit"⟩

/-- A function whose duplicate explicit labels defeat the duality claim. -/
def dupLabelJumps : Function :=
  Function.mk "h" [] none
    [Code.Label "a",
     Code.Instruction (Instruction.Effect EffectOps.jmp [] [] ["x"]),
     Code.Label "a",
     Code.Instruction (Instruction.Effect EffectOps.jmp [] [] ["y"])]

/-- Counterexample to claim C2 as stated: two blocks share the label `"a"`,
the second successor insertion overwrites the first, and the maps lose
mutual consistency: `"a"` is recorded as a predecessor of `"x"` although
`"x"` is not a successor of `"a"`. -/
theorem C2_counterexample :
    "a" ∈ ((dupLabelJumps.get_edges dupLabelJumps.get_basic_blocks).2 "x").getD []
      ∧ "x" ∉ ((dupLabelJumps.get_edges dupLabelJumps.get_basic_blocks).1 "a").getD [] := by
  constructor <;> decide

/-- The numeric value of a decimal digit character. -/
def charVal (c : Char) : Nat := c.toNat - '0'.toNat

/-- Decode a digit-character list left to right, starting from `a`. -/
def decodeAux (a : Nat) (ds : List Char) : Nat :=
  ds.foldl (fun x c => 10 * x + charVal c) a

theorem charVal_digitChar : ∀ m, m < 10 → charVal (Nat.digitChar m) = m := by
  decide

theorem toDigitsCore_decode :
    ∀ (fuel n : Nat) (ds : List Char), n < fuel →
      decodeAux 0 (Nat.toDigitsCore 10 fuel n ds) = decodeAux n ds
  | 0, n, ds, h => absurd h (Nat.not_lt_zero n)
  | fuel + 1, n, ds, h => by
      rw [Nat.toDigitsCore]
      by_cases h0 : n / 10 = 0
      · rw [if_pos h0]
        have hmod : n % 10 = n := by
          have := Nat.div_add_mod n 10
          rw [h0] at this
          simpa using this
        have hlt : n % 10 < 10 := Nat.mod_lt n (by decide)
        show decodeAux 0 (Nat.digitChar (n % 10) :: ds) = decodeAux n ds
        show decodeAux (10 * 0 + charVal (Nat.digitChar (n % 10))) ds = decodeAux n ds
        rw [charVal_digitChar _ hlt, hmod]
        norm_num
      · rw [if_neg h0]
        have hlt : n / 10 < fuel := by
          have h1 : n / 10 < n :=
            Nat.div_lt_self (Nat.pos_of_ne_zero (by
              intro hn
              exact h0 (by simp [hn]))) (by decide)
          omega
        rw [toDigitsCore_decode fuel (n / 10) _ hlt]
        have hlt10 : n % 10 < 10 := Nat.mod_lt n (by decide)
        show decodeAux (10 * (n / 10) + charVal (Nat.digitChar (n % 10))) ds
          = decodeAux n ds
        rw [charVal_digitChar _ hlt10]
        rw [Nat.div_add_mod n 10]

theorem natRepr_injective (m n : Nat) (h : Nat.repr m = Nat.repr n) : m = n := by
  have hdig : Nat.toDigits 10 m = Nat.toDigits 10 n := by
    have hd := congrArg String.data h
    simpa [Nat.repr, List.asString] using hd
  have hm := toDigitsCore_decode (m + 1) m [] (Nat.lt_succ_self m)
  have hn := toDigitsCore_decode (n + 1) n [] (Nat.lt_succ_self n)
  rw [show Nat.toDigitsCore 10 (m + 1) m [] = Nat.toDigits 10 m from rfl] at hm
  rw [show Nat.toDigitsCore 10 (n + 1) n [] = Nat.toDigits 10 n from rfl] at hn
  have : decodeAux m [] = decodeAux n [] := by rw [← hm, ← hn, hdig]
  simpa [decodeAux] using this

/-- Two synthesized labels over the same function name agree only at equal
indices. -/
theorem synthLabel_inj (name : String) {j k : Nat}
    (h : name ++ "_bb" ++ Nat.repr j = name ++ "_bb" ++ Nat.repr k) : j = k := by
  have hd := congrArg String.data h
  simp only [String.data_append, List.append_assoc] at hd
  have h1 := List.append_cancel_left hd
  have h2 := List.append_cancel_left h1
  exact natRepr_injective j k (String.ext h2)

/-- The default label `"entry"` is never a synthesized label. -/
theorem entry_ne_synth (name : String) (k : Nat) :
    "entry" ≠ name ++ "_bb" ++ Nat.repr k := by
  intro h
  have hd := congrArg String.data h
  have hmem : '_' ∈ (name ++ "_bb" ++ Nat.repr k).data := by
    rw [String.data_append, String.data_append]
    exact List.mem_append_left _ (List.mem_append_right _ (by decide))
  rw [← hd] at hmem
  exact absurd hmem (by decide)

theorem nodup_push {α : Type} {xs : List α} {x : α} (h1 : xs.Nodup)
    (h2 : x ∉ xs) : (xs ++ [x]).Nodup := by
  induction xs with
  | nil => simp
  | cons y ys ih =>
      rw [List.nodup_cons] at h1
      rw [List.cons_append, List.nodup_cons]
      refine ⟨?_, ih h1.2 (fun hm => h2 (List.mem_cons_of_mem _ hm))⟩
      intro hy
      rcases List.mem_append.mp hy with hy | hy
      · exact h1.1 hy
      · simp only [List.mem_singleton] at hy
        exact h2 (hy ▸ List.mem_cons_self _ _)

theorem matchHead_eq_headIsLabel (rest : List Code) :
    (match rest.head? with
     | some next => next.is_label
     | none => false) = headIsLabel rest := by
  cases rest <;> rfl

/-- The label-uniqueness invariant of the partitioner loop.  The already
flushed labels are pairwise distinct; the pending label is fresh unless it
is about to be overwritten; the labels still to be consumed are pairwise
distinct, fresh, and never of the synthesized form; every synthesized label
already flushed has index at most the number of flushed blocks; and the
pending label is either not of synthesized form or exactly the synthesized
label for the current block count.  Under these, every label the loop ever
flushes is fresh, so the final label list is pairwise distinct. -/
theorem getBasicBlocksAux_labels_nodup (name : String) :
    ∀ (codes : List Code) (label : String) (instrs : List Code)
      (acc : List BasicBlock),
      (acc.map BasicBlock.label).Nodup →
      (label ∉ acc.map BasicBlock.label ∨ codes = [] ∨ headIsLabel codes = true) →
      (explicitLabels codes).Nodup →
      (∀ l ∈ explicitLabels codes, l ∉ acc.map BasicBlock.label) →
      (∀ l ∈ explicitLabels codes, l ≠ label) →
      (∀ l ∈ explicitLabels codes, ∀ k : Nat, l ≠ name ++ "_bb" ++ Nat.repr k) →
      (∀ k : Nat, (name ++ "_bb" ++ Nat.repr k) ∈ acc.map BasicBlock.label →
        k ≤ acc.length) →
      ((∀ k : Nat, label ≠ name ++ "_bb" ++ Nat.repr k)
        ∨ label = name ++ "_bb" ++ Nat.repr acc.length
        ∨ codes = [] ∨ headIsLabel codes = true) →
      ((getBasicBlocksAux name codes label instrs acc).map BasicBlock.label).Nodup
  | [], label, instrs, acc, hA, _, _, _, _, _, _, _ => by
      simpa [getBasicBlocksAux] using hA
  | c :: rest, label, instrs, acc, hA, hLab, hE, hEA, hEL, hES, hSA, hLS => by
      by_cases hc : c.is_label = true
      · cases c with
        | Instruction i => simp [Code.is_label] at hc
        | Label l =>
          rw [getBasicBlocksAux, if_pos hc]
          have hexp : explicitLabels (Code.Label l :: rest)
              = l :: explicitLabels rest := rfl
          rw [hexp] at hE hEA hEL hES
          show ((getBasicBlocksAux name rest l instrs acc).map
            BasicBlock.label).Nodup
          refine getBasicBlocksAux_labels_nodup name rest l instrs acc hA
            (Or.inl (hEA l (List.mem_cons_self _ _)))
            (List.nodup_cons.mp hE).2
            (fun x hx => hEA x (List.mem_cons_of_mem _ hx))
            (fun x hx heq => (List.nodup_cons.mp hE).1 (heq ▸ hx))
            (fun x hx => hES x (List.mem_cons_of_mem _ hx))
            hSA
            (Or.inl (hES l (List.mem_cons_self _ _)))
      · have hexp : explicitLabels (c :: rest) = explicitLabels rest := by
          cases c with
          | Label l => simp [Code.is_label] at hc
          | Instruction i => rfl
        rw [hexp] at hE hEA hEL hES
        have hLabA : label ∉ acc.map BasicBlock.label := by
          rcases hLab with h | h | h
          · exact h
          · simp at h
          · rw [headIsLabel] at h
            rw [h] at hc
            exact absurd rfl hc
        rw [getBasicBlocksAux, if_neg hc]
        by_cases hf : (rest.isEmpty || (match rest.head? with
            | some next => next.is_label
            | none => false) || c.is_terminator) = true
        · rw [if_pos hf]
          show ((getBasicBlocksAux name rest
              (if (c.is_terminator && !(match rest.head? with
                  | some next => next.is_label
                  | none => false)) = true then
                name ++ "_bb" ++
                  Nat.repr (acc ++ [BasicBlock.mk label (instrs ++ [c])]).length
              else label)
              [] (acc ++ [BasicBlock.mk label (instrs ++ [c])])).map
            BasicBlock.label).Nodup
          have hmap : (acc ++ [BasicBlock.mk label (instrs ++ [c])]).map
              BasicBlock.label = acc.map BasicBlock.label ++ [label] := by
            simp
          have hlen : (acc ++ [BasicBlock.mk label (instrs ++ [c])]).length
              = acc.length + 1 := by simp
          have hA' : ((acc ++ [BasicBlock.mk label (instrs ++ [c])]).map
              BasicBlock.label).Nodup := by
            rw [hmap]
            exact nodup_push hA hLabA
          have hlab_not_synth_or :
              (∀ k : Nat, label ≠ name ++ "_bb" ++ Nat.repr k)
                ∨ label = name ++ "_bb" ++ Nat.repr acc.length := by
            rcases hLS with h | h | h | h
            · exact Or.inl h
            · exact Or.inr h
            · exact absurd h (by simp)
            · rw [headIsLabel] at h
              rw [h] at hc
              exact absurd rfl hc
          have hSA' : ∀ k : Nat, (name ++ "_bb" ++ Nat.repr k)
              ∈ (acc ++ [BasicBlock.mk label (instrs ++ [c])]).map
                BasicBlock.label →
              k ≤ (acc ++ [BasicBlock.mk label (instrs ++ [c])]).length := by
            rw [hmap, hlen]
            intro k hk
            rcases List.mem_append.mp hk with hk | hk
            · exact Nat.le_succ_of_le (hSA k hk)
            · simp only [List.mem_singleton] at hk
              rcases hlab_not_synth_or with h | h
              · exact absurd hk.symm (h k)
              · rw [h] at hk
                rw [synthLabel_inj name hk.symm]
                exact Nat.le_succ _
          have hEA' : ∀ l ∈ explicitLabels rest,
              l ∉ (acc ++ [BasicBlock.mk label (instrs ++ [c])]).map
                BasicBlock.label := by
            rw [hmap]
            intro l hl hmem
            rcases List.mem_append.mp hmem with hm | hm
            · exact hEA l hl hm
            · simp only [List.mem_singleton] at hm
              exact hEL l hl hm
          by_cases hsy : (c.is_terminator && !(match rest.head? with
              | some next => next.is_label
              | none => false)) = true
          · rw [if_pos hsy]
            have hfresh : (name ++ "_bb" ++
                Nat.repr (acc ++ [BasicBlock.mk label (instrs ++ [c])]).length)
                ∉ (acc ++ [BasicBlock.mk label (instrs ++ [c])]).map
                  BasicBlock.label := by
              rw [hmap, hlen]
              intro hmem
              rcases List.mem_append.mp hmem with hm | hm
              · have := hSA _ hm
                omega
              · simp only [List.mem_singleton] at hm
                rcases hlab_not_synth_or with h | h
                · exact h _ hm.symm
                · rw [h] at hm
                  have := synthLabel_inj name hm
                  omega
            refine getBasicBlocksAux_labels_nodup name rest _ []
              (acc ++ [BasicBlock.mk label (instrs ++ [c])]) hA'
              (Or.inl hfresh) hE hEA'
              (fun x hx => by
                rw [hlen]
                exact hES x hx _)
              hES hSA'
              (Or.inr (Or.inl rfl))
          · rw [if_neg hsy]
            have hcase : headIsLabel rest = true ∨ rest = [] := by
              by_cases hh : headIsLabel rest = true
              · exact Or.inl hh
              · right
                have hh' : headIsLabel rest = false := by
                  revert hh
                  cases headIsLabel rest <;> simp
                have hterm : c.is_terminator = false := by
                  cases hterm' : c.is_terminator
                  · rfl
                  · rw [Bool.and_eq_true, Bool.not_eq_true'] at hsy
                    rw [matchHead_eq_headIsLabel] at hsy
                    exact absurd ⟨hterm', hh'⟩ hsy
                rw [matchHead_eq_headIsLabel, hh', hterm] at hf
                simp only [Bool.or_false] at hf
                cases rest with
                | nil => rfl
                | cons r rs => simp [List.isEmpty] at hf
            have hnext : rest = [] ∨ headIsLabel rest = true := hcase.symm
            refine getBasicBlocksAux_labels_nodup name rest label []
              (acc ++ [BasicBlock.mk label (instrs ++ [c])]) hA'
              (Or.inr hnext) hE hEA' hEL hES hSA'
              (Or.inr (Or.inr hnext))
        · rw [if_neg hf]
          have hLS' : (∀ k : Nat, label ≠ name ++ "_bb" ++ Nat.repr k)
              ∨ label = name ++ "_bb" ++ Nat.repr acc.length
              ∨ rest = [] ∨ headIsLabel rest = true := by
            rcases hLS with h | h | h | h
            · exact Or.inl h
            · exact Or.inr (Or.inl h)
            · exact absurd h (by simp)
            · rw [headIsLabel] at h
              rw [h] at hc
              exact absurd rfl hc
          exact getBasicBlocksAux_labels_nodup name rest label (instrs ++ [c])
            acc hA (Or.inl hLabA) hE hEA hEL hES hSA hLS'

/-- Claim C6 (amended): no two blocks returned by `get_basic_blocks` share a
label, provided the function's explicit labels are pairwise distinct, none
of them is `"entry"`, and none of them has the synthesized form
`<function-name>_bb<N>`. -/
theorem C6_label_uniqueness (f : Function)
    (h1 : (explicitLabels f.instrs).Nodup)
    (h2 : "entry" ∉ explicitLabels f.instrs)
    (h3 : ∀ l ∈ explicitLabels f.instrs, ∀ k : Nat,
      l ≠ f.name ++ "_bb" ++ Nat.repr k) :
    ((f.get_basic_blocks).map BasicBlock.label).Nodup :=
  getBasicBlocksAux_labels_nodup f.name f.instrs "entry" [] []
    (by simp) (Or.inl (by simp)) h1 (by simp)
    (fun l hl heq => h2 (heq ▸ hl)) h3 (by simp)
    (Or.inl (fun k => entry_ne_synth f.name k))

/-- A label-free function whose terminator forces a synthesized label. -/
def synthBlocksFn : Function :=
  Function.mk "tw" [] none
    [Code.Instruction (Instruction.Effect EffectOps.jmp [] [] ["x"]),
     Code.Instruction (Instruction.Effect EffectOps.print [] [] [])]

/-- Witness for C6 (amended) on a function with a synthesized label. -/
theorem C6_label_uniqueness_witness :
    ((explicitLabels synthBlocksFn.instrs).Nodup ∧
      "entry" ∉ explicitLabels synthBlocksFn.instrs) ∧
      ((synthBlocksFn.get_basic_blocks).map BasicBlock.label).Nodup :=
  ⟨⟨by decide, by decide⟩,
    C6_label_uniqueness synthBlocksFn (by decide) (by decide)
      (fun l hl _k => absurd hl (List.not_mem_nil l))⟩

/-- Counterexample to claim C6 as stated: a function with two identical
explicit `Label` items yields two blocks that share the label `"a"`. -/
theorem C6_counterexample :
    (dupLabelJumps.get_basic_blocks).map BasicBlock.label = ["a", "a"] ∧
      ¬ ((dupLabelJumps.get_basic_blocks).map BasicBlock.label).Nodup := by
  constructor <;> decide

/-- The single-jump function of spec scenario 4 (claim C3). -/
def jmpOnlyFn : Function :=
  Function.mk "f" [] none
    [Code.Instruction (Instruction.Effect EffectOps.jmp [] [] ["next"])]

/-- Counterexample to claim C3 as stated: `get_basic_blocks` on the
function `f` with body `[jmp "next"]` returns one block, not two, and no
block labeled `"f_bb1"` exists. -/
theorem C3_counterexample :
    (jmpOnlyFn.get_basic_blocks).length = 1 ∧
      "f_bb1" ∉ (jmpOnlyFn.get_basic_blocks).map BasicBlock.label := by
  constructor <;> decide

/-- Claim C3 (amended): on the function `f` with body `[jmp "next"]`,
`get_basic_blocks` returns exactly one block, labeled `"entry"` and holding
the `jmp`; the pending block that received the synthesized label `"f_bb1"`
gains no instruction and is discarded, so the successor map has an entry
for `"entry"` (the list `["next"]`) and none for `"f_bb1"`. -/
theorem C3_one_block :
    jmpOnlyFn.get_basic_blocks
        = [BasicBlock.mk "entry"
            [Code.Instruction (Instruction.Effect EffectOps.jmp [] [] ["next"])]] ∧
      (jmpOnlyFn.get_edges jmpOnlyFn.get_basic_blocks).1 "entry"
        = some ["next"] ∧
      (jmpOnlyFn.get_edges jmpOnlyFn.get_basic_blocks).1 "f_bb1" = none := by
  refine ⟨by decide, by decide, by decide⟩

/-- The function used to refute claim C4 as stated: a `print` followed by a
trailing label. -/
def printThenLabel : Function :=
  Function.mk "f" [] none
    [Code.Instruction (Instruction.Effect EffectOps.print ["x"] [] []),
     Code.Label "end"]

/-- Counterexample to claim C4 as stated: a function ending in the `Label`
item `"end"` yields no block labeled `"end"` at all — the pending block is
discarded, not returned with an empty instruction list. -/
theorem C4_counterexample :
    printThenLabel.instrs.getLast? = some (Code.Label "end") ∧
      printThenLabel.get_basic_blocks
        = [BasicBlock.mk "entry"
            [Code.Instruction (Instruction.Effect EffectOps.print ["x"] [] [])]] ∧
      "end" ∉ (printThenLabel.get_basic_blocks).map BasicBlock.label := by
  refine ⟨by decide, by decide, by decide⟩

theorem getBasicBlocksAux_trailing_label (name : String) (l : String) :
    ∀ (codes : List Code) (label : String) (instrs : List Code)
      (acc : List BasicBlock),
      getBasicBlocksAux name (codes ++ [Code.Label l]) label instrs acc
        = getBasicBlocksAux name codes label instrs acc
  | [], label, instrs, acc => by
      simp [getBasicBlocksAux, Code.is_label, Code.get_label]
  | c :: rest, label, instrs, acc => by
      rw [List.cons_append]
      by_cases hc : c.is_label = true
      · rw [getBasicBlocksAux, if_pos hc]
        conv =>
          rhs
          rw [getBasicBlocksAux, if_pos hc]
        exact getBasicBlocksAux_trailing_label name l rest c.get_label instrs acc
      · rw [getBasicBlocksAux, if_neg hc]
        conv =>
          rhs
          rw [getBasicBlocksAux, if_neg hc]
        cases rest with
        | nil =>
            simp [getBasicBlocksAux, Code.is_label, Code.get_label]
        | cons r rs =>
            simp only []
            rw [matchHead_eq_headIsLabel ((r :: rs) ++ [Code.Label l]),
              matchHead_eq_headIsLabel (r :: rs)]
            have hh : headIsLabel ((r :: rs) ++ [Code.Label l])
                = headIsLabel (r :: rs) := rfl
            have hie : ((r :: rs) ++ [Code.Label l]).isEmpty
                = (r :: rs).isEmpty := rfl
            rw [hh, hie]
            by_cases hflush : ((r :: rs).isEmpty || headIsLabel (r :: rs)
                || c.is_terminator) = true
            · rw [if_pos hflush, if_pos hflush]
              exact getBasicBlocksAux_trailing_label name l (r :: rs) _ [] _
            · rw [if_neg hflush, if_neg hflush]
              exact getBasicBlocksAux_trailing_label name l (r :: rs) label
                (instrs ++ [c]) acc

/-- Claim C4 (amended): a trailing `Label` item with no following
instructions produces no block at all: the block list of a function ending
in a `Label` equals the block list of the same function without it (the
pending block bearing that label is discarded, never returned empty).  The
separate guarantee that `get_edges` gives an empty-instruction block no
outgoing edge is claim C8. -/
theorem C4_trailing_label_discarded (name : String) (args : List Arg)
    (rt : Option Ty) (instrs : List Code) (l : String) :
    (Function.mk name args rt (instrs ++ [Code.Label l])).get_basic_blocks
      = (Function.mk name args rt instrs).get_basic_blocks :=
  getBasicBlocksAux_trailing_label name l instrs "entry" [] []

/-- The straight-line function of spec scenario 1 (claim C7). -/
def straightLineFn : Function :=
  Function.mk "main" [] none
    [Code.Instruction
      (Instruction.Constant ConstOps.const "x" Ty.int (Literal.int 4)),
     Code.Instruction
      (Instruction.Constant ConstOps.const "y" Ty.int (Literal.int 2)),
     Code.Instruction
      (Instruction.Value ValueOps.add (some "z") (some Ty.int) ["x", "y"] [] []),
     Code.Instruction (Instruction.Effect EffectOps.ret [] [] [])]

/-- Counterexample to claim C7 as stated: on the scenario-1 function the
successor map is not key-free — the `ret`-terminated block `"entry"` gets
the key `"entry"` bound to the empty list. -/
theorem C7_counterexample :
    (straightLineFn.get_edges straightLineFn.get_basic_blocks).1 "entry"
      = some [] := by
  decide

/-- Claim C7 (amended): the scenario-1 function yields one block labeled
`"entry"` holding all four instructions; the successor map binds exactly
the key `"entry"`, to the empty list, and the predecessor map is empty. -/
theorem C7_straight_line :
    straightLineFn.get_basic_blocks
        = [BasicBlock.mk "entry" straightLineFn.instrs] ∧
      (straightLineFn.get_edges straightLineFn.get_basic_blocks).1
        = mapInsert emptyEdgeMap "entry" [] ∧
      (straightLineFn.get_edges straightLineFn.get_basic_blocks).2
        = emptyEdgeMap := by
  refine ⟨by decide, rfl, rfl⟩

/-- Witness for C9 at a concrete one-instruction function. -/
theorem C9_no_empty_blocks_witness :
    BasicBlock.mk "entry"
        [Code.Instruction (Instruction.Effect EffectOps.ret [] [] [])]
      ∈ (Function.mk "w" [] none
          [Code.Instruction (Instruction.Effect EffectOps.ret [] [] [])]).get_basic_blocks ∧
      (BasicBlock.mk "entry"
        [Code.Instruction (Instruction.Effect EffectOps.ret [] [] [])]).instrs ≠ [] :=
  ⟨by decide,
    C9_no_empty_blocks
      (Function.mk "w" [] none
        [Code.Instruction (Instruction.Effect EffectOps.ret [] [] [])])
      (BasicBlock.mk "entry"
        [Code.Instruction (Instruction.Effect EffectOps.ret [] [] [])])
      (by decide)⟩

end Bril
